import Mathlib

/-!
Shallow embedding of the PlotDMG storyboard engine (storyboard.py).

The embedding covers: time-offset resolution (EventBase.counter and
EventBase.total_offset), anchor fan-out (EventAnchor.__init__ and
Event.__init__), per-sequence bridge building (EventSequence.build_bridges
and Timeline.build_bridges), the greedy Combiner covering loop
(Storyboard.build_bridges together with StoryElement.possible_groups and
StoryElement.longest_matching_combiner), bridge weights
(EventBridge.weight), friendship aggregation (Character.has_loop,
Character.roster, Character.count_meetings), and event-name normalization
with the global event registry (EventBase.__init__,
TimedEventSequence.add_event, Character.__init__).

Python sets and dicts are modelled as lists taken in an arbitrary but
fixed iteration order; all theorems quantify over that order.
-/

namespace PlotDMG

/-- The kind of sequence-like entity owning an EventBridge.  The Python
code distinguishes these with isinstance checks on the bridge owner
(Timeline, Place, Character, Combiner). -/
inductive SeqKind where
  | timeline
  | place
  | character
  | combiner
deriving DecidableEq, Repr

/-! ## Time-offset resolution (EventBase, lines 458-521) -/

/-- The time data of an EventBase: its own local_offset, its owning
line's local_offset (`self.line.local_offset`), and the local counter. -/
structure EvTime where
  local_offset : Int
  line_offset : Int
  local_counter : Int
deriving DecidableEq, Repr

/-- EventBase.total_offset: `self.local_offset + self.line.local_offset`. -/
def EvTime.total_offset (e : EvTime) : Int :=
  e.local_offset + e.line_offset

/-- EventBase.counter getter: `self.local_counter - self.total_offset`. -/
def EvTime.counter (e : EvTime) : Int :=
  e.local_counter - e.total_offset

/-- EventBase.counter setter: `self.local_counter = abs_time + self.total_offset`. -/
def EvTime.set_counter (e : EvTime) (abs_time : Int) : EvTime :=
  { e with local_counter := abs_time + e.total_offset }

/-- The time initialization of EventBase.__init__: local_counter starts
at 0; when the absolute flag is set the counter argument is assigned
through the counter setter, otherwise it is stored as the local counter. -/
def event_init_time (line_offset offset c : Int) (absolute : Bool) : EvTime :=
  let base : EvTime := { local_offset := offset, line_offset := line_offset, local_counter := 0 }
  if absolute then base.set_counter c else { base with local_counter := c }

/-! ## Anchor fan-out (EventAnchor.__init__, lines 574-594) -/

/-- A Place as needed for fan-out: its identity and its local offset
relative to its Timeline. -/
structure PlaceT where
  pid : Nat
  local_offset : Int
deriving DecidableEq, Repr

/-- A child Event produced by anchor fan-out: the Place it lives in, its
time data and the universal tag. -/
structure ChildEvent where
  place : Nat
  time : EvTime
  universal : Bool
deriving DecidableEq, Repr

/-- One child Event of EventAnchor.__init__ fan-out:
`Event(name_p, p, self.counter, universal=True, **kwargs, absolute=True)`.
The kwargs handed down still contain the anchor's offset, so the child is
built with that offset, the Place as its line, and the anchor's absolute
counter assigned absolutely. -/
def mk_child_event (anchor_offset T : Int) (p : PlaceT) : ChildEvent :=
  { place := p.pid
    time := event_init_time p.local_offset anchor_offset T true
    universal := true }

/-- The fan-out of EventAnchor.__init__: when make_related is set, one
child Event per Place of the Timeline (tl.places, iterated in some
order); otherwise no children. -/
def anchor_fan_out (make_related : Bool) (anchor_offset T : Int)
    (places : List PlaceT) : List ChildEvent :=
  if make_related then places.map (mk_child_event anchor_offset T) else []

/-! ## Anchor reuse for Place events (Event.__init__, lines 682-698) -/

/-- An anchor as recorded on a Timeline: its absolute time, whether it
was created with fan-out (make_related), and its child-event set. -/
structure AnchorRec where
  time : Int
  fan_out : Bool
  children : List Nat
deriving DecidableEq, Repr

/-- Lookup of `self.counter in tl.timeline.ts.keys()`: is there an
anchor at absolute time t in the Timeline's timestamp index? -/
def has_anchor_at (l : List AnchorRec) (t : Int) : Bool :=
  l.any (fun a => a.time == t)

/-- Effect of `tl.timeline.ts[self.counter]` followed by
`self.anchor.child_events.add(self)`: the first anchor holding time t
gains the new event as a child. -/
def add_child_at : List AnchorRec → Int → Nat → List AnchorRec
  | [], _, _ => []
  | a :: rest, t, ev =>
    if a.time = t then { a with children := a.children ++ [ev] } :: rest
    else a :: add_child_at rest t ev

/-- The anchor logic of Event.__init__: reuse the Timeline's anchor at
the event's absolute counter when one exists, otherwise register a fresh
anchor at that time with make_related = False whose only child is the
new event. -/
def place_event_anchor (anchors : List AnchorRec) (T : Int) (ev : Nat) : List AnchorRec :=
  if has_anchor_at anchors T then add_child_at anchors T ev
  else anchors ++ [{ time := T, fan_out := false, children := [ev] }]

/-! ## Bridge building (EventSequence.build_bridges, lines 222-244,
and Timeline.build_bridges, lines 396-414) -/

/-- An entry of an event sequence (the EventInSequence named tuple). -/
structure EIS where
  event : Nat
  dash_from_previous : Bool
  dash_to_next : Bool
deriving DecidableEq, Repr, Inhabited

/-- The data of an emitted EventBridge relevant here: owner, index,
past and future events, and dash flag. -/
structure BridgeOut where
  owner : Nat
  index : Nat
  past : Nat
  future : Nat
  dash : Bool
deriving DecidableEq, Repr

/-- The loop of EventSequence.build_bridges: for i in range(1, len(events)),
emit a bridge from events[i-1] to events[i] with index i and dash equal
to events[i-1].dash_to_next or events[i].dash_from_previous.  The first
argument is the index of the next bridge to emit. -/
def bridge_loop (owner : Nat) : Nat → List EIS → List BridgeOut
  | _, [] => []
  | _, [_] => []
  | i, a :: b :: rest =>
    { owner := owner, index := i, past := a.event, future := b.event
      dash := a.dash_to_next || b.dash_from_previous }
      :: bridge_loop owner (i + 1) (b :: rest)

/-- EventSequence.build_bridges applied to the full entry list (the
default `events = self.e_lst`), as used by Place and Character. -/
def seq_build_bridges (owner : Nat) (e_lst : List EIS) : List BridgeOut :=
  bridge_loop owner 1 e_lst

/-- Timeline.build_bridges: the entry list is first filtered to
entries whose event is not skip_arrow
(`events=[e for e in self.e_lst if not e[0].skip_arrow]`), then the
base loop runs on the filtered list.  Each entry is paired with its
skip_arrow flag. -/
def timeline_build_bridges (owner : Nat) (e_lst : List (EIS × Bool)) : List BridgeOut :=
  seq_build_bridges owner ((e_lst.filter (fun p => !p.2)).map Prod.fst)

/-! ## Bridge weight (EventBridge.weight, lines 825-834) -/

/-- EventBridge.weight: 123 for a Timeline owner, 69 for a Place owner;
otherwise w = 10 * len(child_bridges) + 7, and round(w / 9) when
dash_link.  Python round is nearest-with-ties-to-even on the float
w / 9; since w / 9 has denominator 9 in lowest terms it is never a
half-integer, so the result is the integer nearest to the rational
w / 9, which for natural w is (2 * w + 9) / 18 in integer division. -/
def bridge_weight (k : SeqKind) (children : Nat) (dash_link : Bool) : Nat :=
  match k with
  | SeqKind.timeline => 123
  | SeqKind.place => 69
  | _ =>
    let w := 10 * children + 7
    if dash_link then (2 * w + 9) / 18 else w

/-! ## Friendship aggregation (Character, lines 844-968) -/

/-- The story's characters are modelled by their itineraries: entry c of
the list is the event list of character c.  The attendance counter of
event e for character c (`e.attendees[c]`) equals the number of times c
added e, i.e. the count of e in c's itinerary. -/
def attendance (itins : List (List Nat)) (e c : Nat) : Nat :=
  (itins.getD c []).count e

/-- EventSequence.has_loop: `False if len(self.events) == len(set(self.events))
else True`.  The size of the Python set of events is the length of the
deduplicated list. -/
def has_loop (itin : List Nat) : Bool :=
  !(itin.length == itin.dedup.length)

/-- Membership in Character.roster: `super().roster - (set() if
self.has_loop else {self})`, where super().roster is the union of the
rosters of the visited events and an event's roster is the set of
characters with positive attendance. -/
def char_roster_mem (itins : List (List Nat)) (i c : Nat) : Prop :=
  (∃ e ∈ itins.getD i [], 0 < attendance itins e c) ∧
    (has_loop (itins.getD i []) = true ∨ c ≠ i)

instance (itins : List (List Nat)) (i c : Nat) : Decidable (char_roster_mem itins i c) := by
  unfold char_roster_mem
  infer_instance

/-- Character.count_meetings: over the distinct events of the itinerary
(`set(self.events)`), sum `e.attendees[c] - (1 if c == self else 0)` and
count the events where that difference is positive. -/
def count_meetings (itins : List (List Nat)) (i c : Nat) : Int × Nat :=
  let ml : List Int :=
    (itins.getD i []).dedup.map
      (fun e => (attendance itins e c : Int) - (if c = i then 1 else 0))
  (ml.sum, (ml.filter (fun x => decide (0 < x))).length)

/-! ## Event-name normalization and the global registry
(EventBase.__init__ line 481, TimedEventSequence.add_event lines 330-341,
Character.__init__ lines 862-873) -/

/-- EventBase.__init__: `self.name = name.replace("-", "_")`. -/
def sep_to_underscore (s : List Char) : List Char :=
  s.map (fun c => if c = '-' then '_' else c)

/-- Python str.lower restricted to the ASCII names this model covers. -/
def to_lower_name (s : List Char) : List Char :=
  s.map Char.toLower

/-- TimedEventSequence.add_event: `n.replace("_", "-")`. -/
def underscore_to_hyphen (s : List Char) : List Char :=
  s.map (fun c => if c = '_' then '-' else c)

/-- The global event registry `story.event_list`, a dict modelled as an
association list where the most recent binding of a key comes first. -/
def reg_find : List (List Char × Nat) → List Char → Option Nat
  | [], _ => none
  | (k, v) :: rest, key => if k = key then some v else reg_find rest key

/-- TimedEventSequence.add_event on the registry, applied to an event
whose stored name is the raw name with hyphens replaced (EventBase did
that already): let n be the lowercase of the stored name; fail when n is
already a key, else bind both n and n with underscores turned into
hyphens to the event. -/
def reg_add_event (reg : List (List Char × Nat)) (raw : List Char) (eid : Nat) :
    Option (List (List Char × Nat)) :=
  let n := to_lower_name (sep_to_underscore raw)
  if (reg_find reg n).isSome then none
  else some ((underscore_to_hyphen n, eid) :: (n, eid) :: reg)

/-- Character.__init__ itinerary resolution: the referenced token is
lowercased (`e = e.strip().lower()`) before the registry lookup
`s.event_list[e]`. -/
def resolve_token (reg : List (List Char × Nat)) (tok : List Char) : Option Nat :=
  reg_find reg (to_lower_name tok)

/-! ## Combiners and the covering loop (Combiner lines 971-999,
StoryElement.possible_groups lines 120-133,
Storyboard.build_bridges lines 1114-1133) -/

/-- A Combiner: its member set (a frozenset of characters, modelled as
a list of character keys) and its priority (the input line number, or 0
for the implicit singleton of a Character). -/
structure Combiner where
  chars : List Nat
  priority : Nat
deriving DecidableEq, Repr

/-- Combiner.size_key: `len(c.chars) * 1000 + c.priority`. -/
def Combiner.size_key (c : Combiner) : Nat :=
  c.chars.length * 1000 + c.priority

/-- The comparison the Python sorted call uses: ascending size_key. -/
def combiner_le (a b : Combiner) : Prop :=
  a.size_key ≤ b.size_key

instance : DecidableRel combiner_le :=
  fun a b => Nat.decLe a.size_key b.size_key

instance : IsTotal Combiner combiner_le :=
  ⟨fun a b => Nat.le_total a.size_key b.size_key⟩

instance : IsTrans Combiner combiner_le :=
  ⟨fun _ _ _ => Nat.le_trans⟩

/-- StoryElement.possible_groups: the combiners of story.grouped_roster
whose member set is a subset of the characters to match, sorted
ascending by size_key.  Python sorted is a stable ascending sort, so any
stable ascending sort produces the same list; insertionSort is one. -/
def possible_groups (roster : List Combiner) (owners : List Nat) : List Combiner :=
  List.insertionSort combiner_le
    (roster.filter (fun c => c.chars.all (fun ch => decide (ch ∈ owners))))

/-- Python list[-1], as an Option. -/
def last_opt : List Combiner → Option Combiner
  | [] => none
  | [a] => some a
  | _ :: b :: rest => last_opt (b :: rest)

/-- StoryElement.longest_matching_combiner: the last element of
possible_groups, or None when there is none (IndexError branch). -/
def longest_matching_combiner (roster : List Combiner) (owners : List Nat) :
    Option Combiner :=
  last_opt (possible_groups roster owners)

/-- A queued bridge of Storyboard.links2process under one
(origin, destination) key: the kind and key of its owning sequence, and
an identity to tell bridges apart. -/
structure QBridge where
  kind : SeqKind
  owner : Nat
  id : Nat
deriving DecidableEq, Repr

/-- The bridges of a key's list owned by a Character, in order (the y
worklist of Storyboard.build_bridges). -/
def char_only (l : List QBridge) : List QBridge :=
  l.filter (fun b => b.kind == SeqKind.character)

/-- The bridges of a key's list not owned by a Character, in order
(those appended directly to self.bridges). -/
def direct_only (l : List QBridge) : List QBridge :=
  l.filter (fun b => !(b.kind == SeqKind.character))

/-- Python `e = [r for r in y if r.seq == c][0]; y.remove(e)`: take the
first bridge owned by c out of the worklist; None models the IndexError
when no such bridge exists. -/
def extract_first : List QBridge → Nat → Option (QBridge × List QBridge)
  | [], _ => none
  | b :: rest, c =>
    if b.owner = c then some (b, rest)
    else
      match extract_first rest c with
      | none => none
      | some (e, t) => some (e, b :: t)

/-- The inner loop `for c in c_out.chars: ... y.remove(e);
b.child_bridges.append(e)`: extract one bridge per member, returning the
children in member order and the remaining worklist. -/
def consume (y : List QBridge) : List Nat → Option (List QBridge × List QBridge)
  | [] => some ([], y)
  | c :: cs =>
    match extract_first y c with
    | none => none
    | some (b, y1) =>
      match consume y1 cs with
      | none => none
      | some (kids, rest) => some (b :: kids, rest)

/-- The while loop of Storyboard.build_bridges: as long as the worklist
is nonempty, select the longest matching combiner of the current owners,
move one bridge per member into a new combiner-owned bridge's children,
and continue on the remainder.  Fuel bounds the number of iterations;
the length of the initial worklist always suffices (claim C3).  Each
output pair is the selected combiner with the children of the bridge
created for it. -/
def cover_loop (roster : List Combiner) :
    Nat → List QBridge → List (Combiner × List QBridge) × List QBridge
  | 0, y => ([], y)
  | _ + 1, [] => ([], [])
  | fuel + 1, b :: t =>
    match longest_matching_combiner roster ((b :: t).map QBridge.owner) with
    | none => ([], b :: t)
    | some c =>
      match consume (b :: t) c.chars with
      | none => ([], b :: t)
      | some (kids, rest) =>
        let r := cover_loop roster fuel rest
        ((c, kids) :: r.1, r.2)

/-- Concatenation of the child lists of the combiner-owned bridges the
covering loop created. -/
def children_union : List (Combiner × List QBridge) → List QBridge
  | [] => []
  | p :: rest => p.2 ++ children_union rest

/-! ## Theorems -/

/-- C4: total_offset is the sum of the event's and the line's local
offsets; the absolute time (counter) is local_counter minus total_offset;
an event created with the absolute flag stores the stated value as its
absolute time, deriving local_counter as absolute + total_offset, so the
counter round-trips to the stated value. -/
theorem claimC4 (line_off off t : Int) :
    (event_init_time line_off off t false).total_offset = off + line_off ∧
    (event_init_time line_off off t false).counter = t - (off + line_off) ∧
    (event_init_time line_off off t true).counter = t ∧
    (event_init_time line_off off t true).local_counter = t + (off + line_off) := by
  refine ⟨rfl, rfl, ?_, rfl⟩
  simp only [event_init_time, EvTime.set_counter, EvTime.counter, EvTime.total_offset,
    if_pos]
  omega

/-- C5: an EventAnchor created with fan-out enabled at absolute time T on
a Timeline with Places P1..Pn acquires exactly n child Events, one per
Place; each child is tagged universal and sits at absolute time T,
locally resolved through the Place's offset (its local counter is
T plus the combined offsets). -/
theorem claimC5 (off T : Int) (places : List PlaceT) :
    (anchor_fan_out true off T places).length = places.length ∧
    (anchor_fan_out true off T places).map ChildEvent.place = places.map PlaceT.pid ∧
    (∀ ch ∈ anchor_fan_out true off T places,
      ch.time.counter = T ∧ ch.universal = true) ∧
    ∀ p ∈ places,
      (mk_child_event off T p).time.local_counter = T + (off + p.local_offset) := by
  refine ⟨?_, ?_, ?_, ?_⟩
  · simp [anchor_fan_out]
  · simp [anchor_fan_out, mk_child_event]
  · intro ch hch
    simp only [anchor_fan_out, if_pos, List.mem_map] at hch
    obtain ⟨p, _, rfl⟩ := hch
    constructor
    · simp only [mk_child_event, event_init_time, EvTime.set_counter, EvTime.counter,
        EvTime.total_offset, if_pos]
      omega
    · rfl
  · intro p _
    simp only [mk_child_event, event_init_time, EvTime.set_counter, EvTime.total_offset,
      if_pos]

/-- C5 witness: fan-out over two concrete places. -/
theorem claimC5_witness :
    (anchor_fan_out true 0 5 [PlaceT.mk 0 2, PlaceT.mk 1 (-3)]).length = 2 ∧
    ∀ ch ∈ anchor_fan_out true 0 5 [PlaceT.mk 0 2, PlaceT.mk 1 (-3)],
      ch.time.counter = 5 ∧ ch.universal = true :=
  ⟨(claimC5 0 5 [PlaceT.mk 0 2, PlaceT.mk 1 (-3)]).1,
   (claimC5 0 5 [PlaceT.mk 0 2, PlaceT.mk 1 (-3)]).2.2.1⟩

/-- C8 counterexample: a Combiner-owned bridge with 7 children weighs
77, which is not below the Place-owned weight 69, refuting the claimed
strict ordering Place above every Combiner. -/
theorem claimC8_cex :
    bridge_weight SeqKind.combiner 7 false = 77 ∧
    bridge_weight SeqKind.place 7 false = 69 ∧
    ¬ bridge_weight SeqKind.place 7 false > bridge_weight SeqKind.combiner 7 false := by
  decide

/-- C8 amended: the Timeline weight 123 strictly exceeds the Place
weight 69 everywhere; a Combiner-owned bridge weighs 10*children + 7,
rounded after division by 9 when dashed, and that is strictly below the
Place weight exactly when the bridge has at most 6 children undashed,
or at most 60 children dashed. -/
theorem claimC8_amended (n : Nat) (d : Bool) :
    bridge_weight SeqKind.place n d < bridge_weight SeqKind.timeline n d ∧
    (bridge_weight SeqKind.combiner n false < bridge_weight SeqKind.place n d ↔ n ≤ 6) ∧
    (bridge_weight SeqKind.combiner n true < bridge_weight SeqKind.place n d ↔ n ≤ 60) := by
  refine ⟨by simp [bridge_weight], ?_, ?_⟩ <;>
    simp only [bridge_weight, if_pos, if_neg, Bool.false_eq_true, not_false_eq_true,
      ite_false, ite_true] <;>
    constructor <;> intro h <;> omega

/-- C8 amended witness: a dashed Combiner bridge with 60 children still
weighs below a Place bridge. -/
theorem claimC8_amended_witness :
    bridge_weight SeqKind.combiner 60 true < bridge_weight SeqKind.place 60 true :=
  (claimC8_amended 60 true).2.2.mpr (by decide)

/-- Closed form of the bridge-emission loop: starting at index k over a
chain, one bridge per consecutive pair, indices counting up from k. -/
theorem bridge_loop_eq (owner : Nat) :
    ∀ (es : List EIS) (k : Nat),
      bridge_loop owner k es =
        (List.range (es.length - 1)).map (fun i =>
          { owner := owner, index := k + i,
            past := (es.getD i default).event,
            future := (es.getD (i + 1) default).event,
            dash := (es.getD i default).dash_to_next ||
              (es.getD (i + 1) default).dash_from_previous }) := by
  intro es
  induction es with
  | nil => intro k; simp [bridge_loop]
  | cons a t ih =>
    intro k
    cases t with
    | nil => simp [bridge_loop]
    | cons b rest =>
      show _ :: bridge_loop owner (k + 1) (b :: rest) = _
      rw [ih (k + 1)]
      have hlen : (a :: b :: rest).length - 1 = ((b :: rest).length - 1) + 1 := by
        simp
      rw [hlen, List.range_succ_eq_map, List.map_cons, List.map_map]
      refine congrArg₂ List.cons ?_ (List.map_congr_left ?_)
      · simp [List.getD_cons_zero, List.getD_cons_succ]
      · intro i _
        simp only [Function.comp_apply, List.getD_cons_succ, BridgeOut.mk.injEq,
          true_and, and_true]
        omega

/-- C7 counterexample: a Timeline chain of three entries whose middle
entry is skip-arrow yields a single bridge joining the first and third
entries, not one bridge per consecutive pair of the chain (the claim
predicts two bridges, from entry 0 to 1 and from 1 to 2). -/
theorem claimC7_cex :
    timeline_build_bridges 0
        [(EIS.mk 0 false false, false), (EIS.mk 1 false false, true),
          (EIS.mk 2 false false, false)] =
      [BridgeOut.mk 0 1 0 2 false] ∧
    (timeline_build_bridges 0
        [(EIS.mk 0 false false, false), (EIS.mk 1 false false, true),
          (EIS.mk 2 false false, false)]).length ≠ 3 - 1 := by
  decide

/-- C7 amended: for Places and Characters the build emits exactly one
bridge per consecutive pair of the chain, with 1-based index and dash
equal to the OR of the earlier entry's dash-to-next and the later
entry's dash-from-previous; for a Timeline the chain is first
restricted to the entries that are not skip-arrow, and the pairs,
indices and dash flags are computed on the restricted chain. -/
theorem claimC7_amended (owner : Nat) (es : List EIS) (tl : List (EIS × Bool)) :
    seq_build_bridges owner es =
      (List.range (es.length - 1)).map (fun i =>
        { owner := owner, index := i + 1,
          past := (es.getD i default).event,
          future := (es.getD (i + 1) default).event,
          dash := (es.getD i default).dash_to_next ||
            (es.getD (i + 1) default).dash_from_previous }) ∧
    timeline_build_bridges owner tl =
      (List.range (((tl.filter (fun p => !p.2)).map Prod.fst).length - 1)).map (fun i =>
        { owner := owner, index := i + 1,
          past := (((tl.filter (fun p => !p.2)).map Prod.fst).getD i default).event,
          future := (((tl.filter (fun p => !p.2)).map Prod.fst).getD (i + 1) default).event,
          dash := (((tl.filter (fun p => !p.2)).map Prod.fst).getD i default).dash_to_next ||
            (((tl.filter (fun p => !p.2)).map Prod.fst).getD (i + 1) default).dash_from_previous }) := by
  constructor
  · rw [seq_build_bridges, bridge_loop_eq]
    exact List.map_congr_left (fun i _ => by rw [Nat.add_comm])
  · rw [timeline_build_bridges, seq_build_bridges, bridge_loop_eq]
    exact List.map_congr_left (fun i _ => by rw [Nat.add_comm])

/-- C6 helper: adding a child at time T rewrites exactly the first
anchor holding T, leaving every other anchor untouched. -/
theorem add_child_at_split (T : Int) (ev : Nat) :
    ∀ (pre : List AnchorRec) (a : AnchorRec) (post : List AnchorRec),
      (∀ x ∈ pre, x.time ≠ T) → a.time = T →
      add_child_at (pre ++ a :: post) T ev =
        pre ++ { a with children := a.children ++ [ev] } :: post := by
  intro pre
  induction pre with
  | nil =>
    intro a post _ ha
    simp [add_child_at, ha]
  | cons p ps ih =>
    intro a post hpre ha
    have hp : p.time ≠ T := hpre p (List.mem_cons_self p ps)
    simp only [List.cons_append, add_child_at, if_neg hp, List.append_eq]
    rw [ih a post (fun x hx => hpre x (List.mem_cons_of_mem p hx)) ha]

/-- C6 helper: the timestamp index reports an anchor at T when one of
the recorded anchors holds T. -/
theorem has_anchor_at_of_split (pre : List AnchorRec) (a : AnchorRec)
    (post : List AnchorRec) (T : Int) (ha : a.time = T) :
    has_anchor_at (pre ++ a :: post) T = true := by
  simp only [has_anchor_at, List.any_eq_true]
  exact ⟨a, by simp, by simp [ha]⟩

/-- C6 helper: the timestamp index reports no anchor at T when no
recorded anchor holds T. -/
theorem has_anchor_at_of_fresh (l : List AnchorRec) (T : Int)
    (h : ∀ x ∈ l, x.time ≠ T) : has_anchor_at l T = false := by
  simp only [has_anchor_at, List.any_eq_false]
  intro x hx
  simp [h x hx]

/-- C6: creating an Event whose absolute time is T in a Place: when the
owning Timeline's timestamp index already holds an anchor at T, that
anchor gains the event as a child and no anchor is created or removed;
otherwise exactly one new anchor is appended at T with fan-out disabled
and the new event as its only child. -/
theorem claimC6 (pre post : List AnchorRec) (a : AnchorRec) (T : Int) (ev : Nat)
    (ha : a.time = T) (hpre : ∀ x ∈ pre, x.time ≠ T) :
    place_event_anchor (pre ++ a :: post) T ev =
      pre ++ { a with children := a.children ++ [ev] } :: post ∧
    (place_event_anchor (pre ++ a :: post) T ev).length = (pre ++ a :: post).length ∧
    ∀ l : List AnchorRec, (∀ x ∈ l, x.time ≠ T) →
      place_event_anchor l T ev =
        l ++ [{ time := T, fan_out := false, children := [ev] }] := by
  have hmain : place_event_anchor (pre ++ a :: post) T ev =
      pre ++ { a with children := a.children ++ [ev] } :: post := by
    rw [place_event_anchor, if_pos (has_anchor_at_of_split pre a post T ha)]
    exact add_child_at_split T ev pre a post hpre ha
  refine ⟨hmain, by rw [hmain]; simp, ?_⟩
  intro l hl
  rw [place_event_anchor, has_anchor_at_of_fresh l T hl]
  simp

/-- C6 witness: reusing the concrete anchor at time 5 and creating a
fresh anchor when none exists. -/
theorem claimC6_witness :
    place_event_anchor [AnchorRec.mk 1 false [], AnchorRec.mk 5 false [2]] 5 9 =
      [AnchorRec.mk 1 false [], AnchorRec.mk 5 false [2, 9]] ∧
    place_event_anchor [AnchorRec.mk 1 false []] 5 9 =
      [AnchorRec.mk 1 false [], AnchorRec.mk 5 false [9]] :=
  ⟨(claimC6 [AnchorRec.mk 1 false []] [] (AnchorRec.mk 5 false [2]) 5 9 rfl
      (by decide)).1,
   (claimC6 [AnchorRec.mk 1 false []] [] (AnchorRec.mk 5 false [2]) 5 9 rfl
      (by decide)).2.2 [AnchorRec.mk 1 false []] (by decide)⟩

/-- C9 helper: has_loop is the complement of Nodup of the itinerary. -/
theorem has_loop_iff_not_nodup (itin : List Nat) :
    has_loop itin = true ↔ ¬ itin.Nodup := by
  rw [has_loop]
  constructor
  · intro h hnd
    rw [List.dedup_eq_self.mpr hnd] at h
    simp at h
  · intro hnd
    by_contra h
    simp only [Bool.not_eq_true, Bool.not_eq_true', Bool.not_eq_false, beq_iff_eq] at h
    have hd : itin.dedup = itin :=
      (List.dedup_sublist itin).eq_of_length h.symm
    exact hnd (hd ▸ itin.nodup_dedup)

/-- C9: a Character has has_loop exactly when some event occurs twice
in its itinerary; with no loop the Character is not in its own roster;
with a loop it is, and the first component of count_meetings with
itself (attendance minus one, summed over distinct events) is strictly
positive. -/
theorem claimC9 (itins : List (List Nat)) (i : Nat) :
    (has_loop (itins.getD i []) = true ↔
      ∃ e, 2 ≤ (itins.getD i []).count e) ∧
    (has_loop (itins.getD i []) = false → ¬ char_roster_mem itins i i) ∧
    (has_loop (itins.getD i []) = true → char_roster_mem itins i i) ∧
    (has_loop (itins.getD i []) = true → 0 < (count_meetings itins i i).1) := by
  set itin := itins.getD i [] with hitin
  have hloop : has_loop itin = true ↔ ∃ e, 2 ≤ itin.count e := by
    rw [has_loop_iff_not_nodup, List.nodup_iff_count_le_one]
    constructor
    · intro h
      by_contra hc
      push_neg at hc
      exact h (fun a => by have := hc a; omega)
    · rintro ⟨e, he⟩ h
      have := h e
      omega
  refine ⟨hloop, ?_, ?_, ?_⟩
  · intro hf hmem
    rcases hmem.2 with h | h
    · rw [hf] at h
      cases h
    · exact h rfl
  · intro ht
    obtain ⟨e, he⟩ := hloop.mp ht
    have hmem : e ∈ itin := List.count_pos_iff.mp (by omega)
    exact ⟨⟨e, hmem, by rw [attendance, ← hitin]; omega⟩, Or.inl ht⟩
  · intro ht
    obtain ⟨e, he⟩ := hloop.mp ht
    have hmem : e ∈ itin.dedup := List.mem_dedup.mpr (List.count_pos_iff.mp (by omega))
    have key : (count_meetings itins i i).1 =
        (itin.dedup.map (fun e => (attendance itins e i : Int) - 1)).sum := by
      show (itin.dedup.map
          (fun e => (attendance itins e i : Int) - if i = i then 1 else 0)).sum = _
      exact congrArg List.sum (List.map_congr_left (fun a _ => by rw [if_pos rfl]))
    rw [key]
    have hnn : ∀ x ∈ itin.dedup.map
        (fun e => (attendance itins e i : Int) - 1), 0 ≤ x := by
      intro x hx
      obtain ⟨a, ha, rfl⟩ := List.mem_map.mp hx
      have : a ∈ itin := List.mem_dedup.mp ha
      have : 0 < itin.count a := List.count_pos_iff.mpr this
      rw [attendance, ← hitin]
      omega
    have helt : ((attendance itins e i : Int) - 1) ∈ itin.dedup.map
        (fun e => (attendance itins e i : Int) - 1) :=
      List.mem_map.mpr ⟨e, hmem, rfl⟩
    have hle := List.single_le_sum hnn _ helt
    have : (1 : Int) ≤ (attendance itins e i : Int) - 1 := by
      rw [attendance, ← hitin]
      omega
    omega

/-- C9 witness: one character attending the same event twice. -/
theorem claimC9_witness :
    char_roster_mem [[0, 0]] 0 0 ∧ 0 < (count_meetings [[0, 0]] 0 0).1 :=
  ⟨(claimC9 [[0, 0]] 0).2.2.1 (by decide), (claimC9 [[0, 0]] 0).2.2.2 (by decide)⟩

/-- C10: after registering an event under a raw name, any token whose
lowercase form is the lowercase all-underscore form or the lowercase
all-hyphen form of that name resolves to the event (itinerary tokens
are lowercased before lookup), and registering a second name agreeing
with the first up to letter case and hyphen versus underscore fails as
a duplicate. -/
theorem claimC10 (reg reg1 : List (List Char × Nat)) (raw : List Char) (eid : Nat)
    (hadd : reg_add_event reg raw eid = some reg1) :
    (∀ tok : List Char,
      (to_lower_name tok = to_lower_name (sep_to_underscore raw) ∨
        to_lower_name tok = underscore_to_hyphen (to_lower_name (sep_to_underscore raw))) →
      resolve_token reg1 tok = some eid) ∧
    ∀ raw2 : List Char, ∀ eid2 : Nat,
      to_lower_name (sep_to_underscore raw2) = to_lower_name (sep_to_underscore raw) →
      reg_add_event reg1 raw2 eid2 = none := by
  rw [reg_add_event] at hadd
  by_cases hfind : (reg_find reg (to_lower_name (sep_to_underscore raw))).isSome
  · rw [if_pos hfind] at hadd
    cases hadd
  · rw [if_neg hfind] at hadd
    have hreg1 : reg1 =
        (underscore_to_hyphen (to_lower_name (sep_to_underscore raw)), eid) ::
          (to_lower_name (sep_to_underscore raw), eid) :: reg :=
      (Option.some.injEq _ _).mp hadd.symm
    have hfind_u : reg_find reg1 (to_lower_name (sep_to_underscore raw)) = some eid := by
      rw [hreg1, reg_find]
      by_cases h : underscore_to_hyphen (to_lower_name (sep_to_underscore raw)) =
          to_lower_name (sep_to_underscore raw)
      · rw [if_pos h]
      · rw [if_neg h, reg_find, if_pos rfl]
    have hfind_h : reg_find reg1
        (underscore_to_hyphen (to_lower_name (sep_to_underscore raw))) = some eid := by
      rw [hreg1, reg_find, if_pos rfl]
    constructor
    · intro tok htok
      rcases htok with h | h
      · rw [resolve_token, h, hfind_u]
      · rw [resolve_token, h, hfind_h]
    · intro raw2 eid2 heq
      rw [reg_add_event, heq, hfind_u]
      simp

/-- C10 witness: the event stored from the raw name My-Event resolves
from the all-underscore uppercase token and from the all-hyphen token,
and a second registration differing only in case and separators fails. -/
theorem claimC10_witness :
    resolve_token [("my-event".toList, 4), ("my_event".toList, 4)] ("MY_EVENT".toList) =
      some 4 ∧
    resolve_token [("my-event".toList, 4), ("my_event".toList, 4)] ("My-Event".toList) =
      some 4 ∧
    reg_add_event [("my-event".toList, 4), ("my_event".toList, 4)] ("my_EVENT".toList) 9 =
      none :=
  ⟨(claimC10 [] [("my-event".toList, 4), ("my_event".toList, 4)] ("My-Event".toList) 4
      (by decide)).1 ("MY_EVENT".toList) (Or.inl (by decide)),
   (claimC10 [] [("my-event".toList, 4), ("my_event".toList, 4)] ("My-Event".toList) 4
      (by decide)).1 ("My-Event".toList) (Or.inr (by decide)),
   (claimC10 [] [("my-event".toList, 4), ("my_event".toList, 4)] ("My-Event".toList) 4
      (by decide)).2 ("my_EVENT".toList) 9 (by decide)⟩

/-- Covering helper: the last element of a nonempty list exists. -/
theorem last_opt_isSome : ∀ {l : List Combiner}, l ≠ [] → ∃ m, last_opt l = some m := by
  intro l
  induction l with
  | nil => intro h; cases h rfl
  | cons a t ih =>
    intro _
    cases t with
    | nil => exact ⟨a, rfl⟩
    | cons b rest => exact ih (by simp)

/-- Covering helper: the last element belongs to the list. -/
theorem last_opt_mem : ∀ {l : List Combiner} {m : Combiner},
    last_opt l = some m → m ∈ l := by
  intro l
  induction l with
  | nil => intro m h; cases h
  | cons a t ih =>
    intro m h
    cases t with
    | nil =>
      rw [last_opt] at h
      cases h
      exact List.mem_singleton.mpr rfl
    | cons b rest => exact List.mem_cons_of_mem a (ih h)

/-- Covering helper: in a list sorted ascending, the last element is
above every member. -/
theorem last_opt_max {r : Combiner → Combiner → Prop} :
    ∀ {l : List Combiner} {m : Combiner},
      l.Sorted r → last_opt l = some m → ∀ x ∈ l, x = m ∨ r x m := by
  intro l
  induction l with
  | nil => intro m _ h; cases h
  | cons a t ih =>
    intro m hs h x hx
    cases t with
    | nil =>
      rw [last_opt] at h
      cases h
      rcases List.mem_singleton.mp hx with rfl
      exact Or.inl rfl
    | cons b rest =>
      have hs' := List.sorted_cons.mp hs
      rcases List.mem_cons.mp hx with rfl | hx'
      · exact Or.inr (hs'.1 m (last_opt_mem h))
      · exact ih hs'.2 h x hx'

/-- Covering helper: membership in possible_groups is membership in the
roster together with the subset test passing. -/
theorem mem_possible_groups {roster : List Combiner} {owners : List Nat}
    {c : Combiner} :
    c ∈ possible_groups roster owners ↔
      c ∈ roster ∧ c.chars.all (fun ch => decide (ch ∈ owners)) = true := by
  rw [possible_groups, List.mem_insertionSort, List.mem_filter]

/-- Covering helper: whenever one candidate passes the subset test, the
selection returns some combiner. -/
theorem lmc_isSome {roster : List Combiner} {owners : List Nat} {c0 : Combiner}
    (h : c0 ∈ roster) (hc : c0.chars.all (fun ch => decide (ch ∈ owners)) = true) :
    ∃ m, longest_matching_combiner roster owners = some m := by
  have hmem : c0 ∈ possible_groups roster owners := mem_possible_groups.mpr ⟨h, hc⟩
  exact last_opt_isSome (fun hnil => by rw [hnil] at hmem; cases hmem)

/-- Covering helper: the selected combiner is a candidate. -/
theorem lmc_mem {roster : List Combiner} {owners : List Nat} {m : Combiner}
    (h : longest_matching_combiner roster owners = some m) :
    m ∈ roster ∧ m.chars.all (fun ch => decide (ch ∈ owners)) = true :=
  mem_possible_groups.mp (last_opt_mem h)

/-- Covering helper: the selected combiner maximizes size_key among the
candidates. -/
theorem lmc_max {roster : List Combiner} {owners : List Nat} {m : Combiner}
    (h : longest_matching_combiner roster owners = some m) :
    ∀ c ∈ roster, c.chars.all (fun ch => decide (ch ∈ owners)) = true →
      c.size_key ≤ m.size_key := by
  intro c hc hcall
  have hmem : c ∈ possible_groups roster owners := mem_possible_groups.mpr ⟨hc, hcall⟩
  rcases last_opt_max (List.sorted_insertionSort combiner_le _) h c hmem with rfl | hr
  · exact Nat.le_refl _
  · exact hr

/-- Covering helper: the Boolean subset test means subset. -/
theorem chars_subset {c : Combiner} {owners : List Nat}
    (h : c.chars.all (fun ch => decide (ch ∈ owners)) = true) :
    ∀ ch ∈ c.chars, ch ∈ owners :=
  fun ch hch => of_decide_eq_true (List.all_eq_true.mp h ch hch)

/-- Covering helper: extracting the first bridge of an owner present in
the worklist succeeds, the extracted bridge has that owner, the
extraction is a permutation split, and bridges of other owners all
survive. -/
theorem extract_first_spec {co : Nat} :
    ∀ {y : List QBridge}, co ∈ y.map QBridge.owner →
      ∃ b y1, extract_first y co = some (b, y1) ∧ b.owner = co ∧
        (b :: y1).Perm y ∧ (∀ x ∈ y, x.owner ≠ co → x ∈ y1) := by
  intro y
  induction y with
  | nil => intro h; cases h
  | cons b t ih =>
    intro hmem
    by_cases hb : b.owner = co
    · refine ⟨b, t, by rw [extract_first, if_pos hb], hb, List.Perm.refl _, ?_⟩
      intro x hx hxo
      rcases List.mem_cons.mp hx with rfl | hx'
      · exact absurd hb hxo
      · exact hx'
    · have hmem' : co ∈ t.map QBridge.owner := by
        rcases List.mem_cons.mp hmem with h | h
        · exact absurd h.symm hb
        · exact h
      obtain ⟨e, t1, heq, he, hperm, hsub⟩ := ih hmem'
      refine ⟨e, b :: t1, ?_, he, ?_, ?_⟩
      · rw [extract_first, if_neg hb, heq]
      · exact (List.Perm.swap b e t1).trans (hperm.cons b)
      · intro x hx hxo
        rcases List.mem_cons.mp hx with rfl | hx'
        · exact List.mem_cons_self x t1
        · exact List.mem_cons_of_mem b (hsub x hx' hxo)

/-- Covering helper: consuming a duplicate-free member list whose
members all own bridges in the worklist succeeds; the extracted
children plus the remainder permute the worklist and there is exactly
one child per member. -/
theorem consume_spec :
    ∀ (chars : List Nat) (y : List QBridge), chars.Nodup →
      (∀ ch ∈ chars, ch ∈ y.map QBridge.owner) →
      ∃ kids rest, consume y chars = some (kids, rest) ∧
        (kids ++ rest).Perm y ∧ kids.length = chars.length := by
  intro chars
  induction chars with
  | nil =>
    intro y _ _
    exact ⟨[], y, rfl, List.Perm.refl _, rfl⟩
  | cons c cs ih =>
    intro y hnd hall
    obtain ⟨b, y1, heq, hbo, hperm, hsub⟩ :=
      extract_first_spec (hall c (List.mem_cons_self c cs))
    have hnd' := List.nodup_cons.mp hnd
    have hall' : ∀ ch ∈ cs, ch ∈ y1.map QBridge.owner := by
      intro ch hch
      have hchy : ch ∈ y.map QBridge.owner := hall ch (List.mem_cons_of_mem c hch)
      obtain ⟨x, hxy, hxo⟩ := List.mem_map.mp hchy
      have hxne : x.owner ≠ c := by
        rw [hxo]
        intro hcc
        exact hnd'.1 (hcc ▸ hch)
      exact List.mem_map.mpr ⟨x, hsub x hxy hxne, hxo⟩
    obtain ⟨kids, rest, hc, hp, hl⟩ := ih y1 hnd'.2 hall'
    refine ⟨b :: kids, rest, ?_, ?_, by simp [hl]⟩
    · simp only [consume, heq, hc]
    · exact (hp.cons b).trans hperm

/-- Covering helper: with a standing singleton combiner for every owner
in the worklist and all roster combiners nonempty and duplicate-free,
the covering loop with fuel at least the worklist length empties the
worklist and its created children permute the worklist. -/
theorem cover_loop_spec (roster : List Combiner)
    (hne : ∀ c ∈ roster, c.chars ≠ [] ∧ c.chars.Nodup) :
    ∀ (fuel : Nat) (y : List QBridge),
      (∀ b ∈ y, ∃ p, Combiner.mk [b.owner] p ∈ roster) →
      y.length ≤ fuel →
      (cover_loop roster fuel y).2 = [] ∧
      (children_union (cover_loop roster fuel y).1).Perm y := by
  intro fuel
  induction fuel with
  | zero =>
    intro y _ hlen
    have : y = [] := List.length_eq_zero.mp (Nat.le_zero.mp hlen)
    subst this
    exact ⟨rfl, List.Perm.refl _⟩
  | succ fuel ih =>
    intro y hsing hlen
    cases y with
    | nil => exact ⟨rfl, List.Perm.refl _⟩
    | cons b t =>
      obtain ⟨p, hp⟩ := hsing b (List.mem_cons_self b t)
      have hsub : (Combiner.mk [b.owner] p).chars.all
          (fun ch => decide (ch ∈ (b :: t).map QBridge.owner)) = true := by
        simp
      obtain ⟨m, hm⟩ := lmc_isSome hp hsub
      obtain ⟨hmr, hmall⟩ := lmc_mem hm
      obtain ⟨hmne, hmnd⟩ := hne m hmr
      obtain ⟨kids, rest, hcons, hperm, hklen⟩ :=
        consume_spec m.chars (b :: t) hmnd (chars_subset hmall)
      have hrest_len : rest.length < (b :: t).length := by
        have := hperm.length_eq
        rw [List.length_append] at this
        have hkpos : 0 < kids.length := by
          rw [hklen]
          exact List.length_pos.mpr hmne
        omega
      have hsing' : ∀ x ∈ rest, ∃ q, Combiner.mk [x.owner] q ∈ roster := by
        intro x hx
        exact hsing x (hperm.mem_iff.mp (List.mem_append_right kids hx))
      obtain ⟨hempty, hperm'⟩ := ih rest hsing' (by
        have := hlen
        simp only [List.length_cons] at this hrest_len ⊢
        omega)
      have hred : cover_loop roster (fuel + 1) (b :: t) =
          ((m, kids) :: (cover_loop roster fuel rest).1,
            (cover_loop roster fuel rest).2) := by
        simp only [cover_loop, hm, hcons]
      rw [hred]
      exact ⟨hempty, (hperm'.append_left kids).trans hperm⟩

/-- C1: for one (origin, destination) key the covering consumes the
whole Character-owned sub-worklist: the loop ends with nothing left,
the multiset union of the children of the created Combiner-owned
bridges is exactly the originally queued set of single-Character
bridges (each appearing once), and only Character-owned bridges are
consumed (the rest are routed directly to the story's bridge list). -/
theorem claimC1 (roster : List Combiner) (l : List QBridge)
    (hsing : ∀ b ∈ l, b.kind = SeqKind.character →
      ∃ p, Combiner.mk [b.owner] p ∈ roster)
    (hne : ∀ c ∈ roster, c.chars ≠ [] ∧ c.chars.Nodup) :
    (cover_loop roster (char_only l).length (char_only l)).2 = [] ∧
    (children_union
        (cover_loop roster (char_only l).length (char_only l)).1).Perm
      (char_only l) ∧
    (∀ b ∈ children_union
        (cover_loop roster (char_only l).length (char_only l)).1,
      b.kind = SeqKind.character) ∧
    ∀ b ∈ direct_only l, b.kind ≠ SeqKind.character := by
  have hsing' : ∀ b ∈ char_only l, ∃ p, Combiner.mk [b.owner] p ∈ roster := by
    intro b hb
    have := List.mem_filter.mp hb
    exact hsing b this.1 (by simpa using this.2)
  obtain ⟨hempty, hperm⟩ :=
    cover_loop_spec roster hne (char_only l).length (char_only l) hsing'
      (Nat.le_refl _)
  refine ⟨hempty, hperm, ?_, ?_⟩
  · intro b hb
    have := List.mem_filter.mp (hperm.mem_iff.mp hb)
    simpa using this.2
  · intro b hb
    have := List.mem_filter.mp hb
    simpa using this.2

/-- C1 witness: one Character-owned bridge covered by its singleton
combiner while a Timeline-owned bridge stays out of the covering. -/
theorem claimC1_witness :
    (cover_loop [Combiner.mk [3] 0]
        (char_only [QBridge.mk SeqKind.character 3 0, QBridge.mk SeqKind.timeline 9 1]).length
        (char_only [QBridge.mk SeqKind.character 3 0, QBridge.mk SeqKind.timeline 9 1])).2 = [] ∧
    (children_union (cover_loop [Combiner.mk [3] 0]
        (char_only [QBridge.mk SeqKind.character 3 0, QBridge.mk SeqKind.timeline 9 1]).length
        (char_only [QBridge.mk SeqKind.character 3 0, QBridge.mk SeqKind.timeline 9 1])).1).Perm
      (char_only [QBridge.mk SeqKind.character 3 0, QBridge.mk SeqKind.timeline 9 1]) :=
  ⟨(claimC1 [Combiner.mk [3] 0]
      [QBridge.mk SeqKind.character 3 0, QBridge.mk SeqKind.timeline 9 1]
      (by
        intro b hb hk
        refine ⟨0, ?_⟩
        revert hk
        revert hb
        revert b
        decide)
      (by decide)).1,
   (claimC1 [Combiner.mk [3] 0]
      [QBridge.mk SeqKind.character 3 0, QBridge.mk SeqKind.timeline 9 1]
      (by
        intro b hb hk
        refine ⟨0, ?_⟩
        revert hk
        revert hb
        revert b
        decide)
      (by decide)).2.1⟩

/-- C2 counterexample: with a three-member combiner of priority 0 and a
two-member combiner of priority 1001 both matching the worklist, the
selection picks the two-member combiner (score 3001 beats 3000), so a
larger member set does not always beat a smaller one. -/
theorem claimC2_cex :
    longest_matching_combiner
        [Combiner.mk [1, 2, 3] 0, Combiner.mk [1, 2] 1001] [1, 2, 3] =
      some (Combiner.mk [1, 2] 1001) ∧
    Combiner.mk [1, 2, 3] 0 ∈ possible_groups
      [Combiner.mk [1, 2, 3] 0, Combiner.mk [1, 2] 1001] [1, 2, 3] ∧
    (Combiner.mk [1, 2] 1001).chars.length <
      (Combiner.mk [1, 2, 3] 0).chars.length := by
  decide

/-- C2 amended: the covering step selects the candidate maximizing
score = memberCount * 1000 + priority; when a candidate strictly
maximizes the score it is the one selected, every candidate scores at
most the selected score, and member count dominates whenever the
priorities involved are below 1000 (in particular ties in member count
are broken by the higher — later declared — priority, so B with
priority 5 beats A with priority 1 at equal size).  Unconditional
dominance of member count fails once a priority reaches 1000. -/
theorem claimC2_amended (roster : List Combiner) (owners : List Nat) (B : Combiner)
    (hB : B ∈ roster)
    (hBc : B.chars.all (fun ch => decide (ch ∈ owners)) = true)
    (hmax : ∀ c ∈ roster, c.chars.all (fun ch => decide (ch ∈ owners)) = true →
      c ≠ B → c.size_key < B.size_key) :
    longest_matching_combiner roster owners = some B ∧
    (∀ c ∈ roster, c.chars.all (fun ch => decide (ch ∈ owners)) = true →
      c.size_key ≤ B.size_key) ∧
    (∀ c ∈ roster, c.chars.all (fun ch => decide (ch ∈ owners)) = true →
      c.priority < 1000 → B.priority < 1000 → c.chars.length ≤ B.chars.length) := by
  obtain ⟨m, hm⟩ := lmc_isSome hB hBc
  have hmB : m = B := by
    by_contra hne
    obtain ⟨hmr, hmall⟩ := lmc_mem hm
    have h1 : m.size_key < B.size_key := hmax m hmr hmall hne
    have h2 : B.size_key ≤ m.size_key := lmc_max hm B hB hBc
    omega
  subst hmB
  have hle : ∀ c ∈ roster, c.chars.all (fun ch => decide (ch ∈ owners)) = true →
      c.size_key ≤ m.size_key := lmc_max hm
  refine ⟨hm, hle, ?_⟩
  intro c hc hcall hcp hBp
  have := hle c hc hcall
  rw [Combiner.size_key, Combiner.size_key] at this
  omega

/-- C2 amended witness: the tie-break scenario of the claim — A with
two members and priority 1, B with two members and priority 5, both
matching — selects B. -/
theorem claimC2_witness :
    longest_matching_combiner [Combiner.mk [1, 2] 1, Combiner.mk [1, 2] 5] [1, 2] =
      some (Combiner.mk [1, 2] 5) :=
  (claimC2_amended [Combiner.mk [1, 2] 1, Combiner.mk [1, 2] 5] [1, 2]
    (Combiner.mk [1, 2] 5) (by decide) (by decide) (by decide)).1

/-- C3: on a nonempty worklist whose owners all have standing singleton
combiners, one covering iteration always finds a matching combiner,
consuming it strictly shrinks the worklist, and the loop run with fuel
equal to the worklist length ends with the worklist empty. -/
theorem claimC3 (roster : List Combiner) (y : List QBridge)
    (hsing : ∀ b ∈ y, ∃ p, Combiner.mk [b.owner] p ∈ roster)
    (hne : ∀ c ∈ roster, c.chars ≠ [] ∧ c.chars.Nodup)
    (hy : y ≠ []) :
    (∃ m, longest_matching_combiner roster (y.map QBridge.owner) = some m) ∧
    (∀ m, longest_matching_combiner roster (y.map QBridge.owner) = some m →
      ∃ kids rest, consume y m.chars = some (kids, rest) ∧
        rest.length < y.length) ∧
    (cover_loop roster y.length y).2 = [] := by
  obtain ⟨b, t, rfl⟩ := List.exists_cons_of_ne_nil hy
  obtain ⟨p, hp⟩ := hsing b (List.mem_cons_self b t)
  have hsub : (Combiner.mk [b.owner] p).chars.all
      (fun ch => decide (ch ∈ (b :: t).map QBridge.owner)) = true := by
    simp
  refine ⟨lmc_isSome hp hsub, ?_, (cover_loop_spec roster hne _ _ hsing (Nat.le_refl _)).1⟩
  intro m hm
  obtain ⟨hmr, hmall⟩ := lmc_mem hm
  obtain ⟨hmne, hmnd⟩ := hne m hmr
  obtain ⟨kids, rest, hcons, hperm, hklen⟩ :=
    consume_spec m.chars (b :: t) hmnd (chars_subset hmall)
  refine ⟨kids, rest, hcons, ?_⟩
  have := hperm.length_eq
  rw [List.length_append] at this
  have hkpos : 0 < kids.length := by
    rw [hklen]
    exact List.length_pos.mpr hmne
  omega

/-- C3 witness: a single-bridge worklist with the owner's singleton
combiner is matched and fully covered. -/
theorem claimC3_witness :
    (∃ m, longest_matching_combiner [Combiner.mk [7] 0]
        ([QBridge.mk SeqKind.character 7 5].map QBridge.owner) = some m) ∧
    (cover_loop [Combiner.mk [7] 0] [QBridge.mk SeqKind.character 7 5].length
        [QBridge.mk SeqKind.character 7 5]).2 = [] :=
  ⟨(claimC3 [Combiner.mk [7] 0] [QBridge.mk SeqKind.character 7 5]
      (by
        intro b hb
        refine ⟨0, ?_⟩
        revert hb
        revert b
        decide)
      (by decide) (by decide)).1,
   (claimC3 [Combiner.mk [7] 0] [QBridge.mk SeqKind.character 7 5]
      (by
        intro b hb
        refine ⟨0, ?_⟩
        revert hb
        revert b
        decide)
      (by decide) (by decide)).2.2⟩

end PlotDMG
